import Mathlib

/-!
Shallow embedding of `src/server.rs` of the `enrgy` HTTP server core:
the capped chunked read loop (`HttpServer::read_stream`), the CRLFCRLF
framing and route resolution inside `HttpServer::thread_handle`, the
middleware/service pipeline, the per-connection fallback handler installed
by `HttpServer::run`, the two-phase `HttpServer::bind`, and the worker
pool (`ThreadPool::join`, `Worker::inner`).

External collaborators that live outside this file's source (the header
parser, the routing tree's matcher, UTF-8 decoding, concrete services and
middleware, response serialization) are universally quantified parameters:
every theorem about the server's plumbing holds for all of them.
-/

/-- A byte of the raw TCP stream. -/
abbrev Byte := Nat

namespace Enrgy

/-! ### HttpServer::read_stream -/

/-- Outcome of one `stream.read(&mut read_buf)` call: a chunk of bytes
(a chunk of length 0 is the zero-byte read of a closed peer) or an I/O
error.  A stream is modelled by the sequence of outcomes its reads yield;
an exhausted sequence behaves like a closed peer. -/
inductive ReadEvent where
  | chunk (data : List Byte)
  | ioError
deriving DecidableEq

/-- `const BUFFER_SIZE: usize = 512;` -/
def BUFFER_SIZE : Nat := 512

/-- `const MAX_BYTES: usize = 1028 * 8;` -/
def MAX_BYTES : Nat := 1028 * 8

/-- The loop of `HttpServer::read_stream`: accumulate each chunk, stop on a
zero-byte read or an I/O error, and break once `amount_read >= MAX_BYTES` —
a check made only after the chunk has already been appended to the buffer. -/
def readLoop : List ReadEvent → List Byte → Nat → Except Unit (List Byte)
  | [], data, _ => .ok data
  | .ioError :: _, _, _ => .error ()
  | .chunk c :: rest, data, amount =>
    if c.length = 0 then .ok data
    else if MAX_BYTES ≤ amount + c.length then .ok (data ++ c)
    else readLoop rest (data ++ c) (amount + c.length)

/-- `HttpServer::read_stream`, starting from an empty buffer. -/
def read_stream (events : List ReadEvent) : Except Unit (List Byte) :=
  readLoop events [] 0

/-- The length a `ReadEvent` contributes to the buffer. -/
def chunkLen : ReadEvent → Nat
  | .chunk c => c.length
  | .ioError => 0

/-- A faithful stream model: `stream.read` fills a 512-byte buffer, so every
chunk is at most `BUFFER_SIZE` bytes. -/
def validReads (events : List ReadEvent) : Prop :=
  ∀ e ∈ events, chunkLen e ≤ BUFFER_SIZE

theorem validReads_tail {e : ReadEvent} {events : List ReadEvent}
    (h : validReads (e :: events)) : validReads events :=
  fun x hx => h x (List.mem_cons_of_mem _ hx)

/-- Invariant of the read loop: entered with a running total strictly below
the cap, it can overshoot the cap by at most one chunk minus one byte. -/
theorem readLoop_length_le (events : List ReadEvent) :
    ∀ (data : List Byte) (amount : Nat), validReads events →
      amount < MAX_BYTES → data.length = amount →
      ∀ out, readLoop events data amount = .ok out →
      out.length ≤ MAX_BYTES - 1 + BUFFER_SIZE := by
  induction events with
  | nil =>
    intro data amount _ ha hd out hout
    rw [readLoop] at hout
    cases hout
    omega
  | cons e rest ih =>
    intro data amount hv ha hd out hout
    cases e with
    | ioError =>
      rw [readLoop] at hout
      exact Except.noConfusion hout
    | chunk c =>
      have hcle : c.length ≤ BUFFER_SIZE := hv (.chunk c) (List.mem_cons_self _ _)
      rw [readLoop] at hout
      by_cases hc : c.length = 0
      · rw [if_pos hc] at hout
        cases hout
        omega
      · rw [if_neg hc] at hout
        by_cases hmax : MAX_BYTES ≤ amount + c.length
        · rw [if_pos hmax] at hout
          cases hout
          simp only [List.length_append]
          omega
        · rw [if_neg hmax] at hout
          exact ih (data ++ c) (amount + c.length) (validReads_tail hv)
            (by omega) (by simp [List.length_append, hd]) out hout

/-- C9: for every valid stream, the buffer `read_stream` returns is at most
8735 = (8224 - 1) + 512 bytes long; the cap constant is 1028 * 8 = 8224,
not 8 * 1024 = 8192. -/
theorem read_stream_length_le_8735 (events : List ReadEvent)
    (hv : validReads events) (out : List Byte)
    (hout : read_stream events = .ok out) :
    out.length ≤ 8735 ∧ MAX_BYTES = 8224 ∧ MAX_BYTES ≠ 8 * 1024 := by
  refine ⟨?_, by decide, by decide⟩
  have := readLoop_length_le events [] 0 hv (by decide) rfl out hout
  simpa [MAX_BYTES, BUFFER_SIZE] using this

theorem read_stream_length_le_8735_witness :
    ([7, 7, 7] : List Byte).length ≤ 8735 ∧ MAX_BYTES = 8224 ∧
      MAX_BYTES ≠ 8 * 1024 :=
  read_stream_length_le_8735 [ReadEvent.chunk [7, 7, 7]]
    (fun e he => by simp only [List.mem_singleton] at he; subst he; decide)
    [7, 7, 7] rfl

/-- A hostile peer that keeps sending full 512-byte chunks (seventeen of
them is already past the cap). -/
def overflowReads : List ReadEvent :=
  List.replicate 17 (ReadEvent.chunk (List.replicate 512 0))

/-- On a stream of full 512-byte chunks the loop keeps appending whole
chunks until the running total first reaches the cap, so the final buffer
holds a whole number of chunks rounded up past the cap. -/
theorem readLoop_replicate (c : List Byte) (hc : c.length = 512) :
    ∀ (n : Nat) (data : List Byte) (amount : Nat),
      MAX_BYTES ≤ amount + 512 * n → ¬ MAX_BYTES ≤ amount →
      ∃ out, readLoop (List.replicate n (ReadEvent.chunk c)) data amount
          = .ok out ∧
        out.length = data.length + 512 * ((MAX_BYTES - amount + 511) / 512) := by
  intro n
  induction n with
  | zero => intro data amount henough hbelow; omega
  | succ n ih =>
    intro data amount henough hbelow
    rw [List.replicate_succ, readLoop, if_neg (by omega : ¬ c.length = 0)]
    by_cases hmax : MAX_BYTES ≤ amount + c.length
    · rw [if_pos hmax]
      refine ⟨data ++ c, rfl, ?_⟩
      simp only [List.length_append, hc]
      rw [hc] at hmax
      omega
    · rw [if_neg hmax]
      rw [hc] at hmax
      obtain ⟨out, hout, hlen⟩ := ih (data ++ c) (amount + c.length)
        (by rw [hc]; omega) (by rw [hc]; omega)
      refine ⟨out, hout, ?_⟩
      rw [hlen]
      simp only [List.length_append, hc]
      omega

/-- Counterexample to C3 as stated: on a stream of seventeen full 512-byte
chunks the loop returns 8704 bytes, strictly more than the cap
`MAX_BYTES` = 8224 (and more than 8 * 1024 = 8192): the cap check runs only
after a chunk has been appended, so the buffer does exceed the maximum
total size. -/
theorem read_stream_exceeds_cap :
    ∃ out : List Byte, read_stream overflowReads = .ok out ∧
      out.length = 8704 ∧ MAX_BYTES < out.length ∧ 8 * 1024 < out.length := by
  obtain ⟨out, hout, hlen⟩ := readLoop_replicate (List.replicate 512 0)
    (by rw [List.length_replicate]) 17 [] 0 (by simp only [MAX_BYTES]; omega)
    (by simp only [MAX_BYTES]; omega)
  refine ⟨out, hout, ?_, ?_, ?_⟩ <;>
    simp only [MAX_BYTES, List.length_nil] at hlen ⊢ <;> omega

/-- C3 amended: reading stops at the first chunk that brings the running
total to the cap; the returned buffer can exceed the cap, but by less than
one full chunk: its length is below `MAX_BYTES + BUFFER_SIZE`. -/
theorem read_stream_stops_within_chunk (events : List ReadEvent)
    (hv : validReads events) (out : List Byte)
    (hout : read_stream events = .ok out) :
    out.length < MAX_BYTES + BUFFER_SIZE := by
  have := readLoop_length_le events [] 0 hv (by decide) rfl out hout
  simp only [MAX_BYTES, BUFFER_SIZE] at *
  omega

theorem read_stream_stops_within_chunk_witness :
    ([1, 2] : List Byte).length < MAX_BYTES + BUFFER_SIZE :=
  read_stream_stops_within_chunk [ReadEvent.chunk [1, 2]]
    (fun e he => by simp only [List.mem_singleton] at he; subst he; decide)
    [1, 2] rfl

/-! ### Framing: the CRLFCRLF split inside HttpServer::thread_handle -/

/-- The first index of a CRLFCRLF window, as computed by
`bytes.windows(4).position(|window| window == b"\r\n\r\n")`. -/
def findSep : List Byte → Option Nat
  | a :: b :: c :: d :: rest =>
    if [a, b, c, d] = [13, 10, 13, 10] then some 0
    else (findSep (b :: c :: d :: rest)).map (· + 1)
  | _ => none

/-- Lines 105-114 of `thread_handle`: `bytes.split_at(i + 2)` keeps the first
CRLF of the separator in the header half, and the body drops the remaining
two separator bytes; with no separator the whole buffer is the header and
the body is empty. -/
def frame (bytes : List Byte) : List Byte × List Byte :=
  match findSep bytes with
  | some i =>
    let header := bytes.take (i + 2)
    let body := bytes.drop (i + 2)
    (header, body.drop 2)
  | none => (bytes, [])

/-- The CRLFCRLF separator occupies positions i, i+1, i+2, i+3 of the
buffer. -/
def sepAt (bytes : List Byte) (i : Nat) : Prop :=
  (bytes.drop i).take 4 = [13, 10, 13, 10]

instance (bytes : List Byte) (i : Nat) : Decidable (sepAt bytes i) :=
  inferInstanceAs (Decidable ((bytes.drop i).take 4 = [13, 10, 13, 10]))

theorem sepAt_le_length {bytes : List Byte} {i : Nat} (h : sepAt bytes i) :
    i + 4 ≤ bytes.length := by
  have hlen := congrArg List.length h
  simp only [List.length_take, List.length_drop, List.length_cons,
    List.length_nil] at hlen
  omega

/-- `windows(4).position` finds exactly the first separator occurrence. -/
theorem findSep_of_first {bytes : List Byte} :
    ∀ {i : Nat}, sepAt bytes i → (∀ j < i, ¬ sepAt bytes j) →
      findSep bytes = some i := by
  induction bytes with
  | nil =>
    intro i hi _
    exact absurd (sepAt_le_length hi)
      (by simp only [List.length_nil]; omega)
  | cons a tail ih =>
    intro i hi hfirst
    rcases tail with _ | ⟨b, _ | ⟨c, _ | ⟨d, rest⟩⟩⟩
    · exact absurd (sepAt_le_length hi)
        (by simp only [List.length_cons, List.length_nil]; omega)
    · exact absurd (sepAt_le_length hi)
        (by simp only [List.length_cons, List.length_nil]; omega)
    · exact absurd (sepAt_le_length hi)
        (by simp only [List.length_cons, List.length_nil]; omega)
    · by_cases hsep : [a, b, c, d] = ([13, 10, 13, 10] : List Byte)
      · cases i with
        | zero => rw [findSep, if_pos hsep]
        | succ k => exact absurd hsep (hfirst 0 (Nat.succ_pos k))
      · cases i with
        | zero => exact absurd hi hsep
        | succ k =>
          rw [findSep, if_neg hsep,
            ih hi (fun j hj => hfirst (j + 1) (by omega))]
          rfl

/-- `windows(4).position` yields nothing exactly when no separator occurs. -/
theorem findSep_of_none {bytes : List Byte} (h : ∀ j, ¬ sepAt bytes j) :
    findSep bytes = none := by
  induction bytes with
  | nil => rfl
  | cons a tail ih =>
    rcases tail with _ | ⟨b, _ | ⟨c, _ | ⟨d, rest⟩⟩⟩
    · rfl
    · rfl
    · rfl
    · by_cases hsep : [a, b, c, d] = ([13, 10, 13, 10] : List Byte)
      · exact absurd hsep (h 0)
      · rw [findSep, if_neg hsep, ih (fun j => h (j + 1))]
        rfl

/-- C2 amended: the framing splits at the first CRLFCRLF occurrence, but the
header keeps the first CRLF of the separator: it equals the bytes preceding
the separator followed by one CRLF, while the body is exactly the bytes
following the separator; with no separator the whole buffer becomes the
header and the body is empty. -/
theorem frame_splits_at_first_sep (bytes : List Byte) :
    (∀ i, sepAt bytes i → (∀ j < i, ¬ sepAt bytes j) →
      frame bytes = (bytes.take i ++ [13, 10], bytes.drop (i + 4))) ∧
    ((∀ j, ¬ sepAt bytes j) → frame bytes = (bytes, [])) := by
  constructor
  · intro i hi hfirst
    have h2 : (bytes.drop i).take 2 = [13, 10] := by
      have ht : ((bytes.drop i).take 4).take 2 = (bytes.drop i).take 2 := by
        rw [List.take_take]
        norm_num
      rw [← ht, hi]
      decide
    have h1 : bytes.take (i + 2) = bytes.take i ++ [13, 10] := by
      rw [List.take_add, h2]
    have h3 : (bytes.drop (i + 2)).drop 2 = bytes.drop (i + 4) := by
      rw [List.drop_drop]
    simp only [frame, findSep_of_first hi hfirst]
    rw [h1, h3]
  · intro h
    simp only [frame, findSep_of_none h]

/-- Counterexample to C2 as stated: for the buffer `A\r\n\r\nB` the first
CRLFCRLF occurrence is at index 1, the bytes preceding it are just `A`, yet
the code's header section is `A\r\n`: the header is not exactly the bytes
preceding the first CRLFCRLF. -/
theorem frame_keeps_separator_crlf :
    sepAt [65, 13, 10, 13, 10, 66] 1 ∧
      (∀ j < 1, ¬ sepAt [65, 13, 10, 13, 10, 66] j) ∧
      (frame [65, 13, 10, 13, 10, 66]).1 ≠
        List.take 1 [65, 13, 10, 13, 10, 66] ∧
      frame [65, 13, 10, 13, 10, 66] = ([65, 13, 10], [66]) :=
  ⟨by decide, by decide, by decide, by decide⟩

/-! ### Route resolution inside HttpServer::thread_handle (lines 120-133) -/

/-- `collect::<BTreeMap<String, String>>()` over the captured (key, value)
pairs, observed through lookup: each pair is inserted in iteration order,
a later duplicate key overwriting an earlier one. -/
def btreeOfList (pairs : List (String × String)) : String → Option String :=
  pairs.foldl (fun m kv k => if k = kv.1 then some kv.2 else m k)
    (fun _ => none)

theorem btreeFoldl_lookup (pairs : List (String × String)) :
    ∀ (m : String → Option String) (k v : String),
      (pairs.map Prod.fst).Nodup →
      ((pairs.foldl (fun m kv k => if k = kv.1 then some kv.2 else m k) m) k
          = some v ↔
        (k, v) ∈ pairs ∨ (k ∉ pairs.map Prod.fst ∧ m k = some v)) := by
  induction pairs with
  | nil =>
    intro m k v _
    simp
  | cons p ps ih =>
    obtain ⟨pk, pv⟩ := p
    intro m k v hnd
    simp only [List.map_cons, List.nodup_cons] at hnd
    obtain ⟨hp, hnd⟩ := hnd
    rw [List.foldl_cons, ih _ k v hnd]
    by_cases hk : k = pk
    · subst hk
      rw [if_pos rfl]
      constructor
      · rintro (hmem | ⟨-, hv⟩)
        · exact absurd (List.mem_map_of_mem Prod.fst hmem) hp
        · injection hv with hv
          subst hv
          exact Or.inl (List.mem_cons_self _ _)
      · rintro (hmem | ⟨hnk, -⟩)
        · rcases List.mem_cons.mp hmem with heq | hmem2
          · injection heq with h1 h2
            subst h2
            exact Or.inr ⟨hp, rfl⟩
          · exact absurd (List.mem_map_of_mem Prod.fst hmem2) hp
        · exact absurd
            (by rw [List.map_cons]; exact List.mem_cons_self _ _) hnk
    · rw [if_neg hk]
      constructor
      · rintro (hmem | ⟨hnk, hv⟩)
        · exact Or.inl (List.mem_cons_of_mem _ hmem)
        · refine Or.inr ⟨?_, hv⟩
          intro hcon
          rw [List.map_cons] at hcon
          rcases List.mem_cons.mp hcon with heq | hmem2
          · exact hk heq
          · exact hnk hmem2
      · rintro (hmem | ⟨hnk, hv⟩)
        · rcases List.mem_cons.mp hmem with heq | hmem2
          · injection heq with h1 h2
            exact absurd h1 hk
          · exact Or.inl hmem2
        · refine Or.inr ⟨?_, hv⟩
          intro hcon
          exact hnk
            (by rw [List.map_cons]; exact List.mem_cons_of_mem _ hcon)

/-- With pairwise distinct keys, the collected map holds exactly the
captured pairs. -/
theorem btreeOfList_lookup (pairs : List (String × String))
    (hnd : (pairs.map Prod.fst).Nodup) (k v : String) :
    btreeOfList pairs k = some v ↔ (k, v) ∈ pairs := by
  rw [btreeOfList, btreeFoldl_lookup pairs _ k v hnd]
  simp

/-- Lines 120-133 of `thread_handle`: look the parsed method up in the
routing tree, try to match the parsed path, and either keep the matched
service with its captured parameters collected into a map, or fall back to
the not-found service with an empty map.  The tree and its matcher belong
to the external router, so they are arbitrary functions here; `α` is the
service handle type. -/
def resolve {α : Type}
    (tree : String → Option (String → Option (α × List (String × String))))
    (not_found : α) (method url : String) :
    α × (String → Option String) :=
  match (tree method).bind (fun t => t url) with
  | some (service, parameters) => (service, btreeOfList parameters)
  | none => (not_found, fun _ => none)

/-- C6: when the tree matches, the service receives exactly the captured
(name, value) pairs (the matcher emits one pair per placeholder; distinct
placeholder names are the router's contract). -/
theorem resolve_matched {α : Type}
    (tree : String → Option (String → Option (α × List (String × String))))
    (not_found : α) (method url : String)
    (matcher : String → Option (α × List (String × String)))
    (service : α) (parameters : List (String × String))
    (hm : tree method = some matcher)
    (hf : matcher url = some (service, parameters))
    (hnd : (parameters.map Prod.fst).Nodup) :
    (resolve tree not_found method url).1 = service ∧
    ∀ k v, (resolve tree not_found method url).2 k = some v ↔
      (k, v) ∈ parameters := by
  have hres : resolve tree not_found method url
      = (service, btreeOfList parameters) := by
    unfold resolve
    rw [hm, Option.some_bind, hf]
  exact ⟨by rw [hres], fun k v => by
    rw [hres]
    exact btreeOfList_lookup parameters hnd k v⟩

/-- The spec's demonstration route, GET /users/:id, as an external matcher
capturing one parameter; service handles are numbered. -/
def demoMatcher : String → Option (Nat × List (String × String)) :=
  fun url => if url = "/users/42" then some (7, [("id", "42")]) else none

/-- A routing tree holding only the GET matcher above. -/
def demoTree :
    String → Option (String → Option (Nat × List (String × String))) :=
  fun method => if method = "GET" then some demoMatcher else none

theorem resolve_matched_witness :
    (resolve demoTree 0 "GET" "/users/42").1 = 7 ∧
    ∀ k v, (resolve demoTree 0 "GET" "/users/42").2 k = some v ↔
      (k, v) ∈ [("id", "42")] :=
  resolve_matched demoTree 0 "GET" "/users/42" demoMatcher 7 [("id", "42")]
    (by simp [demoTree]) (by simp [demoMatcher]) (by simp)

/-- C7: with no method entry in the tree or no path match in the matcher,
`thread_handle` falls back to the snapshot's not-found service with an
empty parameter mapping. -/
theorem resolve_unmatched {α : Type}
    (tree : String → Option (String → Option (α × List (String × String))))
    (not_found : α) (method url : String)
    (h : tree method = none ∨
      ∃ matcher, tree method = some matcher ∧ matcher url = none) :
    (resolve tree not_found method url).1 = not_found ∧
    ∀ k, (resolve tree not_found method url).2 k = none := by
  have hres : resolve tree not_found method url
      = (not_found, fun _ => none) := by
    unfold resolve
    rcases h with h | ⟨matcher, hm, hf⟩
    · rw [h, Option.none_bind]
    · rw [hm, Option.some_bind, hf]
  exact ⟨by rw [hres], fun k => by rw [hres]⟩

theorem resolve_unmatched_witness :
    (resolve demoTree 0 "GET" "/nope").1 = 0 ∧
    ∀ k, (resolve demoTree 0 "GET" "/nope").2 k = none :=
  resolve_unmatched demoTree 0 "GET" "/nope"
    (Or.inr ⟨demoMatcher, by simp [demoTree], by simp [demoMatcher]⟩)

/-! ### The middleware/service pipeline (thread_handle lines 138-148) -/

/-- Observable per-connection events: middleware hook invocations, the
service call, successful and failed `write_all` calls, and the
both-direction shutdown. -/
inductive ConnEvent where
  | beforeHook (id : Nat)
  | serviceCall
  | afterHook (id : Nat)
  | wrote (bytes : List Byte)
  | writeFailed (bytes : List Byte)
  | shutdownBoth
deriving DecidableEq

/-- A middleware as registered on the app: `before(&mut request)` may
mutate the request, `after(&request, &response)` returns nothing; `id`
identifies the middleware in the event trace. -/
structure Middleware (Req Res : Type) where
  id : Nat
  before : Req → Req
  after : Req → Res → Unit

/-- The before-hook loop: fold over the middleware list in registration
order, threading the mutable request and recording one beforeHook event
per middleware. -/
def runBefores {Req Res : Type} (mws : List (Middleware Req Res))
    (req : Req) : Req × List ConnEvent :=
  mws.foldl
    (fun acc mw =>
      (mw.before acc.1, acc.2 ++ [ConnEvent.beforeHook mw.id]))
    (req, [])

/-- The after-hook loop: call each after-hook (which returns nothing) in
registration order, recording one afterHook event per middleware. -/
def runAfters {Req Res : Type} (mws : List (Middleware Req Res)) (req : Req)
    (res : Res) : List ConnEvent :=
  mws.foldl
    (fun evs mw =>
      let _ := mw.after req res
      evs ++ [ConnEvent.afterHook mw.id])
    []

theorem runBeforesAux_trace {Req Res : Type} :
    ∀ (mws : List (Middleware Req Res)) (req : Req) (evs : List ConnEvent),
      (mws.foldl
        (fun acc mw =>
          (mw.before acc.1, acc.2 ++ [ConnEvent.beforeHook mw.id]))
        (req, evs)).2
        = evs ++ mws.map (fun mw => ConnEvent.beforeHook mw.id) := by
  intro mws
  induction mws with
  | nil =>
    intro req evs
    simp
  | cons mw rest ih =>
    intro req evs
    rw [List.foldl_cons, ih, List.map_cons]
    simp

/-- The before loop records exactly one event per middleware, in list
order. -/
theorem runBefores_events {Req Res : Type} (mws : List (Middleware Req Res))
    (req : Req) :
    (runBefores mws req).2
      = mws.map (fun mw => ConnEvent.beforeHook mw.id) := by
  have h := runBeforesAux_trace mws req []
  simpa [runBefores] using h

theorem runAftersAux_trace {Req Res : Type} (req : Req) (res : Res) :
    ∀ (mws : List (Middleware Req Res)) (evs : List ConnEvent),
      mws.foldl
        (fun evs mw =>
          let _ := mw.after req res
          evs ++ [ConnEvent.afterHook mw.id])
        evs
        = evs ++ mws.map (fun mw => ConnEvent.afterHook mw.id) := by
  intro mws
  induction mws with
  | nil =>
    intro evs
    simp
  | cons mw rest ih =>
    intro evs
    rw [List.foldl_cons, ih, List.map_cons]
    simp

/-- The after loop records exactly one event per middleware, in list
order. -/
theorem runAfters_trace {Req Res : Type} (mws : List (Middleware Req Res))
    (req : Req) (res : Res) :
    runAfters mws req res
      = mws.map (fun mw => ConnEvent.afterHook mw.id) := by
  have h := runAftersAux_trace req res mws []
  simpa [runAfters] using h

/-- Lines 138-148 of `thread_handle`: run every before-hook, call the
service once with exclusive access to the request (it may mutate it and
returns a response or a typed error, modelled by its numeric code), and on
success only run every after-hook. -/
def runPipeline {Req Res : Type} (mws : List (Middleware Req Res))
    (service : Req → Except Nat (Res × Req)) (req : Req) :
    List ConnEvent × Except Nat (Res × Req) :=
  match service (runBefores mws req).1 with
  | .error e => ((runBefores mws req).2 ++ [ConnEvent.serviceCall], .error e)
  | .ok (res, req2) =>
    ((runBefores mws req).2 ++ [ConnEvent.serviceCall]
        ++ runAfters mws req2 res,
      .ok (res, req2))

/-- C5: every before-hook runs exactly once, strictly in registration
order, before the single service call; every after-hook runs exactly once,
strictly in registration order, after the service call, if and only if the
service call succeeds. -/
theorem pipeline_hook_order {Req Res : Type} (mws : List (Middleware Req Res))
    (service : Req → Except Nat (Res × Req)) (req : Req) :
    (∀ e, (runPipeline mws service req).2 = .error e →
      (runPipeline mws service req).1
        = mws.map (fun mw => ConnEvent.beforeHook mw.id)
            ++ [ConnEvent.serviceCall]) ∧
    (∀ r, (runPipeline mws service req).2 = .ok r →
      (runPipeline mws service req).1
        = mws.map (fun mw => ConnEvent.beforeHook mw.id)
            ++ [ConnEvent.serviceCall]
            ++ mws.map (fun mw => ConnEvent.afterHook mw.id)) := by
  unfold runPipeline
  cases hs : service (runBefores mws req).1 with
  | error e =>
    refine ⟨fun e2 _ => ?_, fun r hr => ?_⟩
    · rw [runBefores_events]
    · exact absurd hr (by simp)
  | ok p =>
    obtain ⟨res, req2⟩ := p
    dsimp only
    refine ⟨fun e2 he => ?_, fun r _ => ?_⟩
    · exact absurd he (by simp)
    · rw [runBefores_events, runAfters_trace]

/-- Every event the pipeline emits is a hook invocation or the service
call. -/
theorem pipeline_event_shape {Req Res : Type}
    (mws : List (Middleware Req Res))
    (service : Req → Except Nat (Res × Req)) (req : Req) :
    ∀ e ∈ (runPipeline mws service req).1,
      (∃ i, e = ConnEvent.beforeHook i) ∨ e = ConnEvent.serviceCall ∨
        (∃ i, e = ConnEvent.afterHook i) := by
  unfold runPipeline
  cases hs : service (runBefores mws req).1 with
  | error err =>
    intro e he
    rw [runBefores_events] at he
    rcases List.mem_append.mp he with hmem | hmem
    · rcases List.mem_map.mp hmem with ⟨mw, -, rfl⟩
      exact Or.inl ⟨mw.id, rfl⟩
    · rw [List.mem_singleton] at hmem
      subst hmem
      exact Or.inr (Or.inl rfl)
  | ok p =>
    obtain ⟨res, req2⟩ := p
    dsimp only
    intro e he
    rw [runBefores_events, runAfters_trace] at he
    rcases List.mem_append.mp he with hmem | hmem
    · rcases List.mem_append.mp hmem with hmem2 | hmem2
      · rcases List.mem_map.mp hmem2 with ⟨mw, -, rfl⟩
        exact Or.inl ⟨mw.id, rfl⟩
      · rw [List.mem_singleton] at hmem2
        subst hmem2
        exact Or.inr (Or.inl rfl)
    · rcases List.mem_map.mp hmem with ⟨mw, -, rfl⟩
      exact Or.inr (Or.inr ⟨mw.id, rfl⟩)

/-! ### HttpServer::thread_handle and the handler closure of
HttpServer::run -/

/-- Parsed header data as thread_handle uses it: the request method and
url; produced by the external header parser. -/
structure HeaderData where
  method : String
  url : String

/-- `enum ServerError` of server.rs: the Http, Io and Utf8 variants, their
payloads modelled by numeric codes. -/
inductive ServerError where
  | http (e : Nat)
  | ioErr (e : Nat)
  | utf8 (e : Nat)
deriving DecidableEq

/-- The external collaborators thread_handle calls: UTF-8 decoding of the
header section, the header parser, the request constructor, response
serialization, and the fixed bad-request response bytes.  All are
arbitrary. -/
structure Env (Req Res : Type) where
  decode_utf8 : List Byte → Except Nat String
  parse_header : String → Except Nat HeaderData
  from_parts : HeaderData → List Byte → (String → Option String) → Nat → Req
  into_bytes : Res → List Byte
  bad_request_bytes : List Byte

/-- The immutable built application snapshot as thread_handle reads it:
the per-method routing tree, the ordered middleware list, the not-found
service, and the shared data handle (a numeric id). -/
structure BuiltApp (Req Res : Type) where
  tree : String →
    Option (String →
      Option ((Req → Except Nat (Res × Req)) × List (String × String)))
  middleware : List (Middleware Req Res)
  not_found : Req → Except Nat (Res × Req)
  data : Nat

/-- A connection's stream behavior: the outcomes of its successive reads
and the outcome of its n-th `write_all` call. -/
structure StreamModel where
  reads : List ReadEvent
  writeOk : Nat → Bool

/-- Write attempts recorded in a trace; indexes the stream's next
`write_all` outcome. -/
def countWriteAttempts (evs : List ConnEvent) : Nat :=
  evs.countP (fun e =>
    match e with
    | .wrote _ => true
    | .writeFailed _ => true
    | _ => false)

/-- Complete response writes recorded in a trace. -/
def countWrote (evs : List ConnEvent) : Nat :=
  evs.countP (fun e =>
    match e with
    | .wrote _ => true
    | _ => false)

/-- `HttpServer::thread_handle`: read the stream, frame it at the first
CRLFCRLF, decode the header section, parse it, resolve the service, run
the middleware/service pipeline, and write the serialized response; every
`?` becomes an early error return.  Returns the trace of observable events
together with the `Result`. -/
def thread_handle {Req Res : Type} (env : Env Req Res)
    (app : BuiltApp Req Res) (s : StreamModel) :
    List ConnEvent × Except ServerError Unit :=
  match read_stream s.reads with
  | .error _ => ([], .error (.ioErr 0))
  | .ok bytes =>
    match env.decode_utf8 (frame bytes).1 with
    | .error e => ([], .error (.utf8 e))
    | .ok headerText =>
      match env.parse_header headerText with
      | .error e => ([], .error (.http e))
      | .ok headerData =>
        match resolve app.tree app.not_found headerData.method
            headerData.url with
        | (service, parameters) =>
          match runPipeline app.middleware service
              (env.from_parts headerData (frame bytes).2 parameters
                app.data) with
          | (evs, .error e) => (evs, .error (.http e))
          | (evs, .ok (res, _)) =>
            if s.writeOk (countWriteAttempts evs) then
              (evs ++ [ConnEvent.wrote (env.into_bytes res)], .ok ())
            else
              (evs ++ [ConnEvent.writeFailed (env.into_bytes res)],
                .error (.ioErr 1))

/-- The handler closure `HttpServer::run` installs in the pool (lines
78-85): on any thread_handle error, write the fixed bad-request response
to the stream; if that write fails too, shut the connection down in both
directions and swallow both errors — the closure returns nothing either
way. -/
def handleConnection {Req Res : Type} (env : Env Req Res)
    (app : BuiltApp Req Res) (s : StreamModel) : List ConnEvent :=
  match thread_handle env app s with
  | (evs, .ok _) => evs
  | (evs, .error _) =>
    if s.writeOk (countWriteAttempts evs) then
      evs ++ [ConnEvent.wrote env.bad_request_bytes]
    else
      evs ++ [ConnEvent.writeFailed env.bad_request_bytes,
        ConnEvent.shutdownBoth]

theorem countWrote_append (l1 l2 : List ConnEvent) :
    countWrote (l1 ++ l2) = countWrote l1 + countWrote l2 := by
  unfold countWrote
  rw [List.countP_append]

/-- The pipeline itself never writes to the stream. -/
theorem countWrote_pipeline {Req Res : Type}
    (mws : List (Middleware Req Res))
    (service : Req → Except Nat (Res × Req)) (req : Req) :
    countWrote (runPipeline mws service req).1 = 0 := by
  unfold countWrote
  rw [List.countP_eq_zero]
  intro e he
  rcases pipeline_event_shape mws service req e he with
    ⟨i, rfl⟩ | rfl | ⟨i, rfl⟩ <;> simp

/-- thread_handle writes exactly one response when it succeeds and none
when it returns an error (its own failed write attempt included). -/
theorem thread_handle_trace_writes {Req Res : Type} (env : Env Req Res)
    (app : BuiltApp Req Res) (s : StreamModel) :
    (∀ u, (thread_handle env app s).2 = .ok u →
      countWrote (thread_handle env app s).1 = 1) ∧
    (∀ err, (thread_handle env app s).2 = .error err →
      countWrote (thread_handle env app s).1 = 0) := by
  unfold thread_handle
  split
  · exact ⟨fun u hu => absurd hu (by simp), fun err _ => rfl⟩
  · split
    · exact ⟨fun u hu => absurd hu (by simp), fun err _ => rfl⟩
    · split
      · exact ⟨fun u hu => absurd hu (by simp), fun err _ => rfl⟩
      · split
        · split
          next evs e heq =>
            refine ⟨fun u hu => absurd hu (by simp), fun err _ => ?_⟩
            have h0 := congrArg (fun p => countWrote p.1) heq
            dsimp only at h0
            rw [countWrote_pipeline] at h0
            exact h0.symm
          next evs res req2 heq =>
            have h0 : countWrote evs = 0 := by
              have h := congrArg (fun p => countWrote p.1) heq
              dsimp only at h
              rw [countWrote_pipeline] at h
              exact h.symm
            split
            · refine ⟨fun u _ => ?_, fun err he => absurd he (by simp)⟩
              rw [countWrote_append, h0]
              rfl
            · refine ⟨fun u hu => absurd hu (by simp), fun err _ => ?_⟩
              rw [countWrote_append, h0]
              rfl

/-- C1 amended: at most one complete response is ever written per accepted
connection — the service response or the fixed bad-request fallback — and
zero only when the fallback write itself fails, in which case the trace
ends with the both-direction shutdown. -/
theorem handleConnection_writes_at_most_one {Req Res : Type}
    (env : Env Req Res) (app : BuiltApp Req Res) (s : StreamModel) :
    countWrote (handleConnection env app s) ≤ 1 ∧
    (countWrote (handleConnection env app s) = 0 →
      (handleConnection env app s).getLast?
        = some ConnEvent.shutdownBoth) := by
  obtain ⟨hok, herr⟩ := thread_handle_trace_writes env app s
  cases hth : thread_handle env app s with
  | mk evs r =>
    cases r with
    | ok u =>
      have h1 : countWrote evs = 1 := by
        have h := hok u (by rw [hth])
        rwa [hth] at h
      have hc : handleConnection env app s = evs := by
        unfold handleConnection
        rw [hth]
      rw [hc, h1]
      exact ⟨le_refl 1, fun h => absurd h (by omega)⟩
    | error err =>
      have h0 : countWrote evs = 0 := by
        have h := herr err (by rw [hth])
        rwa [hth] at h
      by_cases hw : s.writeOk (countWriteAttempts evs) = true
      · have hc : handleConnection env app s
            = evs ++ [ConnEvent.wrote env.bad_request_bytes] := by
          unfold handleConnection
          rw [hth]
          dsimp only
          rw [if_pos hw]
        have hone : countWrote [ConnEvent.wrote env.bad_request_bytes]
            = 1 := rfl
        rw [hc, countWrote_append, h0, hone]
        exact ⟨le_refl 1, fun h => absurd h (by omega)⟩
      · have hc : handleConnection env app s
            = evs ++ [ConnEvent.writeFailed env.bad_request_bytes,
                ConnEvent.shutdownBoth] := by
          unfold handleConnection
          rw [hth]
          dsimp only
          rw [if_neg hw]
        have hzero : countWrote
            [ConnEvent.writeFailed env.bad_request_bytes,
              ConnEvent.shutdownBoth] = 0 := rfl
        constructor
        · rw [hc, countWrote_append, h0, hzero]
          omega
        · intro _
          rw [hc, show evs ++ [ConnEvent.writeFailed env.bad_request_bytes,
              ConnEvent.shutdownBoth]
              = (evs ++ [ConnEvent.writeFailed env.bad_request_bytes])
                ++ [ConnEvent.shutdownBoth] from by simp]
          exact List.getLast?_concat _

/-- An environment whose header parser rejects everything; used to drive
the handler into its failure path on concrete runs. -/
def failEnv : Env Unit Unit :=
  { decode_utf8 := fun _ => .ok ""
    parse_header := fun _ => .error 0
    from_parts := fun _ _ _ _ => ()
    into_bytes := fun _ => []
    bad_request_bytes := [66] }

/-- An app with no routes whose not-found service fails. -/
def failApp : BuiltApp Unit Unit :=
  { tree := fun _ => none
    middleware := []
    not_found := fun _ => .error 0
    data := 0 }

/-- A connection whose very first read fails and whose writes all fail. -/
def failStream : StreamModel :=
  { reads := [ReadEvent.ioError], writeOk := fun _ => false }

/-- Counterexample to C1 as stated: when the handler fails and the
fallback bad-request write fails too, zero responses are written — not
exactly one. -/
theorem handleConnection_zero_writes :
    countWrote (handleConnection failEnv failApp failStream) = 0 ∧
      countWrote (handleConnection failEnv failApp failStream) ≠ 1 :=
  ⟨rfl, by decide⟩

/-- C8: if thread_handle fails and the fallback bad-request write fails
too, the closure's whole observable behavior is the failed write followed
by the both-direction shutdown; the closure returns nothing, so neither
error propagates further. -/
theorem fallback_failure_shuts_down {Req Res : Type} (env : Env Req Res)
    (app : BuiltApp Req Res) (s : StreamModel) (evs : List ConnEvent)
    (err : ServerError)
    (hfail : thread_handle env app s = (evs, .error err))
    (hw : s.writeOk (countWriteAttempts evs) = false) :
    handleConnection env app s
      = evs ++ [ConnEvent.writeFailed env.bad_request_bytes,
          ConnEvent.shutdownBoth] := by
  unfold handleConnection
  rw [hfail]
  dsimp only
  rw [if_neg (by rw [hw]; exact Bool.false_ne_true)]

theorem fallback_failure_shuts_down_witness :
    handleConnection failEnv failApp failStream
      = [ConnEvent.writeFailed [66], ConnEvent.shutdownBoth] :=
  fallback_failure_shuts_down failEnv failApp failStream []
    (ServerError.ioErr 0) rfl rfl

/-! ### The worker pool: ThreadPool::join and Worker::inner -/

/-- Outcome of one bounded-wait dequeue (`recv_timeout`, 100 ms): an item,
a timeout, or a disconnected queue. -/
inductive RecvResult (D : Type) where
  | okData (d : D)
  | timeout
  | disconnected
deriving DecidableEq

/-- Why a worker's loop ended. -/
inductive ExitReason where
  | disconnected
  | shutdown
deriving DecidableEq

/-- `Worker::inner`: loop taking the next dequeue outcome; a received item
is handled to completion before the next dequeue, a disconnected queue
exits immediately, and a timeout exits only when the close flag is set.
The flag is written concurrently, so it is a function of the step number;
the dequeue outcomes are the (finite) schedule this run observes.  Returns
the handled items, the number of outcomes consumed before the exit event,
and the exit reason (none when the schedule runs out mid-loop). -/
def Worker.inner {D : Type} (close : Nat → Bool) :
    List (RecvResult D) → Nat → List D × Nat × Option ExitReason
  | [], _ => ([], 0, none)
  | .okData d :: rest, t =>
    match Worker.inner close rest (t + 1) with
    | (hs, n, e) => (d :: hs, n + 1, e)
  | .disconnected :: _, _ => ([], 0, some .disconnected)
  | .timeout :: rest, t =>
    if close t then ([], 0, some .shutdown)
    else
      match Worker.inner close rest (t + 1) with
      | (hs, n, e) => (hs, n + 1, e)

/-- The items a dequeue schedule delivers. -/
def okItems {D : Type} : List (RecvResult D) → List D
  | [] => []
  | .okData d :: rest => d :: okItems rest
  | _ :: rest => okItems rest

/-- An action `ThreadPool::join` performs. -/
inductive PoolAction where
  | setClose
  | joinWorker (id : Nat)
deriving DecidableEq

/-- `ThreadPool::join` as the sequence of actions it performs: store
`true` into the shared close flag, then join every worker in order. -/
def ThreadPool.join (workers : List Nat) : List PoolAction :=
  PoolAction.setClose :: workers.map PoolAction.joinWorker

/-- The worker loop exits only at a disconnected dequeue or at a timeout
with the close flag set, and every item dequeued before the exit event was
handled. -/
theorem Worker.inner_spec {D : Type} (close : Nat → Bool) :
    ∀ (rs : List (RecvResult D)) (t : Nat) (hs : List D) (n : Nat)
      (e : Option ExitReason),
      Worker.inner close rs t = (hs, n, e) →
      hs = okItems (rs.take n) ∧
      (e = some ExitReason.disconnected →
        rs.get? n = some RecvResult.disconnected) ∧
      (e = some ExitReason.shutdown →
        rs.get? n = some RecvResult.timeout ∧ close (t + n) = true) ∧
      (e = none → n = rs.length) := by
  intro rs
  induction rs with
  | nil =>
    intro t hs n e h
    rw [Worker.inner] at h
    cases h
    exact ⟨rfl, by simp, by simp, fun _ => rfl⟩
  | cons r rest ih =>
    intro t hs n e h
    cases r with
    | okData d =>
      rw [Worker.inner] at h
      cases hrec : Worker.inner close rest (t + 1) with
      | mk hs2 p =>
        cases p with
        | mk n2 e2 =>
          rw [hrec] at h
          injection h with hA hTail
          injection hTail with hB hC
          subst hA
          subst hB
          subst hC
          obtain ⟨ih1, ih2, ih3, ih4⟩ := ih (t + 1) hs2 n2 e2 hrec
          refine ⟨?_, ?_, ?_, ?_⟩
          · rw [List.take_succ_cons, okItems, ih1]
          · intro he
            exact ih2 he
          · intro he
            obtain ⟨ha, hb⟩ := ih3 he
            refine ⟨ha, ?_⟩
            rw [show t + (n2 + 1) = t + 1 + n2 from by omega]
            exact hb
          · intro he
            rw [List.length_cons, ih4 he]
    | disconnected =>
      rw [Worker.inner] at h
      cases h
      exact ⟨rfl, fun _ => rfl, by simp, by simp⟩
    | timeout =>
      rw [Worker.inner] at h
      by_cases hc : close t = true
      · rw [if_pos hc] at h
        cases h
        exact ⟨rfl, by simp, fun _ => ⟨rfl, by simpa using hc⟩, by simp⟩
      · rw [if_neg hc] at h
        cases hrec : Worker.inner close rest (t + 1) with
        | mk hs2 p =>
          cases p with
          | mk n2 e2 =>
            rw [hrec] at h
            injection h with hA hTail
            injection hTail with hB hC
            subst hA
            subst hB
            subst hC
            obtain ⟨ih1, ih2, ih3, ih4⟩ := ih (t + 1) hs2 n2 e2 hrec
            refine ⟨?_, ?_, ?_, ?_⟩
            · rw [List.take_succ_cons]
              exact ih1
            · intro he
              exact ih2 he
            · intro he
              obtain ⟨ha, hb⟩ := ih3 he
              refine ⟨ha, ?_⟩
              rw [show t + (n2 + 1) = t + 1 + n2 from by omega]
              exact hb
            · intro he
              rw [List.length_cons, ih4 he]

/-- A concrete run: one item is handled, then a timeout before shutdown is
ignored, and the timeout after the flag is set exits the loop. -/
theorem worker_inner_example :
    Worker.inner (fun t => decide (2 ≤ t))
        [RecvResult.okData 5, RecvResult.timeout, RecvResult.timeout] 0
      = ([5], 2, some ExitReason.shutdown) := rfl

/-- C4: ThreadPool::join first stores the close flag and only then joins
every worker, in order; a worker's loop exits only on a disconnected queue
or on a timeout with the close flag already set at that step, so every
item dequeued before the exit was handled to completion and none is
abandoned. -/
theorem pool_join_and_worker_exit {D : Type} :
    (∀ workers : List Nat,
      (ThreadPool.join workers).head? = some PoolAction.setClose ∧
      (ThreadPool.join workers).tail
        = workers.map PoolAction.joinWorker) ∧
    (∀ (close : Nat → Bool) (rs : List (RecvResult D)) (t : Nat)
        (hs : List D) (n : Nat) (e : Option ExitReason),
      Worker.inner close rs t = (hs, n, e) →
      hs = okItems (rs.take n) ∧
      (e = some ExitReason.disconnected →
        rs.get? n = some RecvResult.disconnected) ∧
      (e = some ExitReason.shutdown →
        rs.get? n = some RecvResult.timeout ∧ close (t + n) = true) ∧
      (e = none → n = rs.length)) :=
  ⟨fun _ => ⟨rfl, rfl⟩,
    fun close rs t hs n e h => Worker.inner_spec close rs t hs n e h⟩

/-! ### HttpServer::bind -/

/-- The `Unbound` marker type of the two-phase builder. -/
inductive Unbound where
  | mk

/-- `HttpServer<Addr>`: the close-flag handle, the worker handles, the
address, and the shared snapshot handle; the two `Arc` handles and the
worker vector entries are identified by numeric ids. -/
structure HttpServer (Addr : Type) where
  close : Nat
  workers : List Nat
  addr : Addr
  app : Nat

/-- `HttpServer::bind`: move every field unchanged, replacing only the
address with the given one (already converted by `Into<SocketAddr>`). -/
def HttpServer.bind {B : Type} (s : HttpServer Unbound) (addr : B) :
    HttpServer B :=
  { close := s.close, workers := s.workers, addr := addr, app := s.app }

/-- C10: bind changes only the address field; the shutdown-flag handle,
the workers vector and the shared application snapshot handle of the bound
server are the very same values held by the unbound server. -/
theorem bind_changes_only_addr (s : HttpServer Unbound) {B : Type}
    (addr : B) :
    (s.bind addr).close = s.close ∧ (s.bind addr).workers = s.workers ∧
      (s.bind addr).app = s.app ∧ (s.bind addr).addr = addr :=
  ⟨rfl, rfl, rfl, rfl⟩

end Enrgy
